import Mathlib

/-!
Shallow embedding of the transition-graph pipeline of this repository:
`aethra/graph/processor.py` (`GraphProcessor._construct_graph`,
`GraphProcessor.filter_graph`,
`GraphProcessor.extract_intent_and_matrix_from_graph`) and
`aethra/graph/filters/threshold_filter.py` (`ThresholdFilter.apply`).

Edge weights are copied around but never arithmetically combined, so they
are carried as rationals.  A `networkx.DiGraph` is modelled by its
insertion-ordered node list and its edge list, each edge carrying its
`weight` attribute.  Python dictionaries (`intent_by_cluster`) are
modelled as insertion-ordered association lists.  Fallible Python code
returns `Except PyError`.
-/

/-- Python runtime errors that the embedded code can raise, plus the
`ShapeMismatch` error named by the specification's error taxonomy
(no code in the repository ever raises it). -/
inductive PyError where
  | indexError
  | keyError
  | typeError
  | shapeMismatch
deriving DecidableEq, Repr

/-- A `networkx.DiGraph` as used by the code: insertion-ordered node list
and edge list; each edge `(u, v, w)` carries its `weight` attribute `w`. -/
structure DiGraph where
  nodes : List String
  edges : List (String × String × ℚ)
deriving DecidableEq, Repr

namespace DiGraph

/-- `nx.DiGraph()` -/
def empty : DiGraph := ⟨[], []⟩

/-- `graph.add_node(n)`: a no-op when the node is present, otherwise the
node is appended (networkx reports nodes in insertion order). -/
def add_node (g : DiGraph) (n : String) : DiGraph :=
  if n ∈ g.nodes then g else { g with nodes := g.nodes ++ [n] }

/-- `graph.add_edge(u, v, weight=w)`: both endpoints are added as nodes if
missing; an existing `(u, v)` edge has its `weight` attribute overwritten,
otherwise the edge is appended. -/
def add_edge (g : DiGraph) (u v : String) (w : ℚ) : DiGraph :=
  if ((g.add_node u).add_node v).edges.any (fun e => decide (e.1 = u ∧ e.2.1 = v)) then
    { ((g.add_node u).add_node v) with
      edges := ((g.add_node u).add_node v).edges.map
        (fun e => if e.1 = u ∧ e.2.1 = v then (u, v, w) else e) }
  else
    { ((g.add_node u).add_node v) with
      edges := ((g.add_node u).add_node v).edges ++ [(u, v, w)] }

/-- `graph.remove_edge(u, v)` (on a graph that holds the edge): the edge
with that source and target is dropped; nodes are untouched. -/
def remove_edge (g : DiGraph) (u v : String) : DiGraph :=
  { g with edges := g.edges.filter (fun e => decide ¬(e.1 = u ∧ e.2.1 = v)) }

/-- The `weight` attribute of edge `(u, v)`, when the edge exists. -/
def edgeWeight? (g : DiGraph) (u v : String) : Option ℚ :=
  (g.edges.find? (fun e => decide (e.1 = u ∧ e.2.1 = v))).map (fun e => e.2.2)

/-- The source/target pairs of the edge list. -/
def edgePairs (g : DiGraph) : List (String × String) :=
  g.edges.map (fun e => (e.1, e.2.1))

/-- Well-formedness that every `networkx.DiGraph` satisfies: nodes are
pairwise distinct, every edge endpoint is a node, and no two edges share
the same source/target pair (a `DiGraph` is not a multigraph). -/
def WF (g : DiGraph) : Prop :=
  g.nodes.Nodup ∧ (∀ e ∈ g.edges, e.1 ∈ g.nodes ∧ e.2.1 ∈ g.nodes) ∧
    g.edgePairs.Nodup

instance : DecidablePred WF := fun g => by unfold WF edgePairs; infer_instance

end DiGraph

/-- `intent_by_cluster[k]` on the dictionary modelled as an association
list (keys are unique in a Python dict, so first match is the match). -/
def dictGet (ibc : List (Nat × String)) (k : Nat) : Option String :=
  (ibc.find? (fun p => decide (p.1 = k))).map Prod.snd

/-- `matrix[i][j] = w` on a list-of-rows matrix; out-of-range indices
leave the matrix unchanged (never reached on in-range writes). -/
def set2d (m : List (List ℚ)) (i j : Nat) (w : ℚ) : List (List ℚ) :=
  match m.get? i with
  | none => m
  | some row => m.set i (row.set j w)

/-- `matrix[i][j]` with default `0` outside the range. -/
def get2d (m : List (List ℚ)) (i j : Nat) : ℚ :=
  ((m.get? i).bind (fun row => row.get? j)).getD 0

namespace GraphProcessor

/-- Inner loop of `_construct_graph`:
`for j, weight in enumerate(weights): to_intent = self.intent_by_cluster[int(j)];
graph.add_edge(from_intent, to_intent, weight=weight)`.
The index lookup raises `KeyError` when `j` is not a key. -/
def add_row_edges (ibc : List (Nat × String)) (from_intent : String) :
    Nat → List ℚ → DiGraph → Except PyError DiGraph
  | _, [], g => Except.ok g
  | j, w :: ws, g =>
    match dictGet ibc j with
    | none => Except.error PyError.keyError
    | some to_intent =>
        add_row_edges ibc from_intent (j + 1) ws (g.add_edge from_intent to_intent w)

/-- `GraphProcessor._construct_graph`: add every label of
`intent_by_cluster` as a node, then for every `(i, from_intent)` item read
row `transition_matrix[int(i)]` (raising `IndexError` when the row is
missing) and add an edge for every entry of the row — unconditionally,
zero weights included. -/
def construct_graph (transition_matrix : List (List ℚ))
    (intent_by_cluster : List (Nat × String)) : Except PyError DiGraph :=
  let g0 := intent_by_cluster.foldl (fun g p => g.add_node p.2) DiGraph.empty
  intent_by_cluster.foldlM
    (fun g p =>
      match transition_matrix.get? p.1 with
      | none => Except.error PyError.indexError
      | some weights => add_row_edges intent_by_cluster p.2 0 weights g)
    g0

/-- Body of `GraphProcessor.extract_intent_and_matrix_from_graph`: list the
nodes in insertion order, zero-initialize a square matrix of that size, and
write `matrix[node_to_index[u]][node_to_index[v]] = weight` for every edge;
the returned label map sends each new index to its node.  (The
`@classmethod`-binding bug of the Python declaration is modelled separately
by `extract_classmethod_call`.) -/
def extract_intent_and_matrix_from_graph (graph : DiGraph) :
    List (Nat × String) × List (List ℚ) :=
  let nodes := graph.nodes
  let size := nodes.length
  let m0 : List (List ℚ) := List.replicate size (List.replicate size 0)
  let m := graph.edges.foldl
    (fun m e => set2d m (nodes.indexOf e.1) (nodes.indexOf e.2.1) e.2.2) m0
  (nodes.enum, m)

end GraphProcessor

/-- `ThresholdFilter(threshold)` -/
structure ThresholdFilter where
  threshold : ℚ

namespace ThresholdFilter

/-- The loop of `ThresholdFilter.apply`: iterate over a snapshot
(`list(filtered_graph.edges(data=True))`) of the copy's edge list and
remove from the copy every edge whose weight is strictly below the
threshold. -/
def apply_loop (t : ℚ) : DiGraph → List (String × String × ℚ) → DiGraph
  | fg, [] => fg
  | fg, e :: es =>
      apply_loop t (if e.2.2 < t then fg.remove_edge e.1 e.2.1 else fg) es

/-- `ThresholdFilter.apply`: copy the input graph, then run the removal
loop over a snapshot of the copy's edges and return the copy. -/
def apply (f : ThresholdFilter) (graph : DiGraph) : DiGraph :=
  apply_loop f.threshold graph graph.edges

/-- `ThresholdFilter.apply` with the two Python objects tracked
explicitly: the state is `(caller's input graph, filtered_graph)`.
`filtered_graph = graph.copy()` makes an independent object, and each
`remove_edge` of the loop is invoked on `filtered_graph` only. -/
def apply_run_loop (t : ℚ) :
    DiGraph × DiGraph → List (String × String × ℚ) → DiGraph × DiGraph
  | s, [] => s
  | (inp, fg), e :: es =>
      apply_run_loop t (inp, if e.2.2 < t then fg.remove_edge e.1 e.2.1 else fg) es

/-- The call `f.apply(graph)` observed from outside: first component is
the caller's graph object after the call returns, second the returned
graph. -/
def apply_run (f : ThresholdFilter) (graph : DiGraph) : DiGraph × DiGraph :=
  apply_run_loop f.threshold (graph, graph) graph.edges

end ThresholdFilter

/-- A Python positional call of a bound method: a method declaring
`params` parameters besides `self`/`cls` called with `args` positional
arguments raises `TypeError` unless the counts match; only then does the
body run. -/
def py_method_call {α : Type} (params args : Nat) (body : Unit → α) :
    Except PyError α :=
  if args = params then Except.ok (body ()) else Except.error PyError.typeError

/-- A filter strategy object as `GraphProcessor.filter_graph` sees it: the
number of parameters its `apply` method declares besides `self`, and the
graph transformation its body performs when a call binds. -/
structure FilterStrategy where
  declared_params : Nat
  run : DiGraph → DiGraph

/-- A `ThresholdFilter` as a strategy: `def apply(self, graph)` declares
one parameter besides `self`. -/
def ThresholdFilter.strategy (f : ThresholdFilter) : FilterStrategy :=
  { declared_params := 1, run := f.apply }

/-- The mutable fields of a `GraphProcessor` instance. -/
structure GraphProcessorState where
  transition_matrix : List (List ℚ)
  intent_by_cluster : List (Nat × String)
  graph : DiGraph

/-- The class-level call
`GraphProcessor.extract_intent_and_matrix_from_graph(g)`: the method is
declared `@classmethod` with the single parameter `graph` (no `cls`), so
the descriptor prepends the class and the underlying function receives 2
arguments against 1 declared parameter. -/
def extract_classmethod_call (g : DiGraph) :
    Except PyError (List (Nat × String) × List (List ℚ)) :=
  py_method_call 1 2 (fun _ => GraphProcessor.extract_intent_and_matrix_from_graph g)

/-- `GraphProcessor.filter_graph`: calls
`filter_strategy.apply(self.graph, transition_matrix_array,
self.intent_by_cluster)` — three positional arguments — then the
class-level extraction, then assigns the instance fields.  Mutation is
modelled by returning the updated state; an error propagates before any
field is assigned, leaving the caller's state as it was. -/
def GraphProcessor.filter_graph (s : GraphProcessorState)
    (filter_strategy : FilterStrategy) :
    Except PyError (GraphProcessorState × DiGraph) := do
  let new_graph ← py_method_call filter_strategy.declared_params 3
    (fun _ => filter_strategy.run s.graph)
  let pair ← extract_classmethod_call new_graph
  Except.ok ({ transition_matrix := pair.2, intent_by_cluster := pair.1,
               graph := new_graph }, new_graph)

/-- The valid inputs of the round-trip claim: a square matrix, a label map
keyed (in some dictionary insertion order) by exactly `0..N-1`, and
pairwise-distinct label values. -/
def ValidInput (tm : List (List ℚ)) (ibc : List (Nat × String)) : Prop :=
  (∀ row ∈ tm, row.length = tm.length) ∧
    (ibc.map Prod.fst).Perm (List.range tm.length) ∧
    (ibc.map Prod.snd).Nodup

instance (tm : List (List ℚ)) (ibc : List (Nat × String)) :
    Decidable (ValidInput tm ibc) := by unfold ValidInput; infer_instance

/-! ### Basic lemmas about the graph operations -/

namespace DiGraph

theorem add_node_edges (g : DiGraph) (n : String) :
    (g.add_node n).edges = g.edges := by
  unfold add_node; split <;> rfl

theorem add_node_nodes (g : DiGraph) (n : String) :
    (g.add_node n).nodes = if n ∈ g.nodes then g.nodes else g.nodes ++ [n] := by
  by_cases h : n ∈ g.nodes <;> simp [add_node, h]

theorem mem_add_node_nodes {g : DiGraph} {n x : String} :
    x ∈ (g.add_node n).nodes ↔ x ∈ g.nodes ∨ x = n := by
  by_cases h : n ∈ g.nodes <;> simp [add_node, h]
  exact fun he => he ▸ h

theorem add_node_nodes_nodup {g : DiGraph} (h : g.nodes.Nodup) (n : String) :
    (g.add_node n).nodes.Nodup := by
  by_cases hm : n ∈ g.nodes <;> simp_all [add_node, hm, List.nodup_append]

theorem add_node_nodes_of_mem {g : DiGraph} {n : String} (h : n ∈ g.nodes) :
    (g.add_node n).nodes = g.nodes := by
  rw [add_node_nodes, if_pos h]

theorem add_edge_nodes_of_mem {g : DiGraph} {u v : String}
    (hu : u ∈ g.nodes) (hv : v ∈ g.nodes) (w : ℚ) :
    (g.add_edge u v w).nodes = g.nodes := by
  unfold add_edge
  have h1 : (g.add_node u).nodes = g.nodes := add_node_nodes_of_mem hu
  have h2 : ((g.add_node u).add_node v).nodes = g.nodes := by
    rw [add_node_nodes_of_mem (by rw [h1]; exact hv), h1]
  split <;> simpa using h2

theorem mem_add_edge_nodes {g : DiGraph} {u v x : String} {w : ℚ} :
    x ∈ (g.add_edge u v w).nodes ↔ x ∈ g.nodes ∨ x = u ∨ x = v := by
  unfold add_edge
  split <;> simp <;> rw [mem_add_node_nodes, mem_add_node_nodes] <;> tauto

theorem add_edge_nodes_nodup {g : DiGraph} (h : g.nodes.Nodup)
    (u v : String) (w : ℚ) : (g.add_edge u v w).nodes.Nodup := by
  unfold add_edge
  split <;> simpa using add_node_nodes_nodup (add_node_nodes_nodup h u) v

end DiGraph

theorem find?_map_overwrite (es : List (String × String × ℚ)) (u v : String) (w : ℚ)
    (h : es.any (fun e => decide (e.1 = u ∧ e.2.1 = v)) = true) :
    ((es.map (fun e => if e.1 = u ∧ e.2.1 = v then (u, v, w) else e)).find?
      (fun e => decide (e.1 = u ∧ e.2.1 = v))) = some (u, v, w) := by
  induction es with
  | nil => simp at h
  | cons e es ih =>
    simp only [List.map_cons]
    by_cases he : e.1 = u ∧ e.2.1 = v
    · rw [if_pos he, List.find?_cons_of_pos _ (by simp)]
    · rw [if_neg he, List.find?_cons_of_neg _ (by simpa using he)]
      apply ih
      simp only [List.any_cons, Bool.or_eq_true, decide_eq_true_eq] at h
      exact h.resolve_left he

theorem find?_map_overwrite_ne (es : List (String × String × ℚ)) {u v u' v' : String}
    (w : ℚ) (hne : ¬(u' = u ∧ v' = v)) :
    ((es.map (fun e => if e.1 = u ∧ e.2.1 = v then (u, v, w) else e)).find?
      (fun e => decide (e.1 = u' ∧ e.2.1 = v'))) =
    es.find? (fun e => decide (e.1 = u' ∧ e.2.1 = v')) := by
  induction es with
  | nil => rfl
  | cons e es ih =>
    simp only [List.map_cons]
    by_cases he : e.1 = u ∧ e.2.1 = v
    · have h1 : ¬((u, v, w).1 = u' ∧ (u, v, w).2.1 = v') := by
        intro hc; exact hne ⟨hc.1.symm, hc.2.symm⟩
      have h2 : ¬(e.1 = u' ∧ e.2.1 = v') := by
        intro hc; exact hne ⟨hc.1.symm.trans he.1, hc.2.symm.trans he.2⟩
      rw [if_pos he, List.find?_cons_of_neg _ (by simpa using h1),
        List.find?_cons_of_neg _ (by simpa using h2)]
      exact ih
    · by_cases hp : e.1 = u' ∧ e.2.1 = v'
      · rw [if_neg he, List.find?_cons_of_pos _ (by simpa using hp),
          List.find?_cons_of_pos _ (by simpa using hp)]
      · rw [if_neg he, List.find?_cons_of_neg _ (by simpa using hp),
          List.find?_cons_of_neg _ (by simpa using hp)]
        exact ih

namespace DiGraph

theorem add_edge_edges_cases (g : DiGraph) (u v : String) (w : ℚ) :
    (g.add_edge u v w).edges =
      (if g.edges.any (fun e => decide (e.1 = u ∧ e.2.1 = v)) then
        g.edges.map (fun e => if e.1 = u ∧ e.2.1 = v then (u, v, w) else e)
      else g.edges ++ [(u, v, w)]) := by
  unfold add_edge
  rw [add_node_edges, add_node_edges]
  split <;> simp_all [add_node_edges]

theorem edgeWeight?_add_edge_self (g : DiGraph) (u v : String) (w : ℚ) :
    (g.add_edge u v w).edgeWeight? u v = some w := by
  unfold edgeWeight?
  rw [add_edge_edges_cases]
  by_cases h : g.edges.any (fun e => decide (e.1 = u ∧ e.2.1 = v)) = true
  · rw [if_pos h, find?_map_overwrite g.edges u v w h]; rfl
  · have hnone : g.edges.find? (fun e => decide (e.1 = u ∧ e.2.1 = v)) = none := by
      rw [List.find?_eq_none]
      intro e he hc
      exact h (List.any_eq_true.mpr ⟨e, he, hc⟩)
    rw [if_neg h, List.find?_append, hnone, List.find?_cons_of_pos _ (by simp)]
    rfl

theorem edgeWeight?_add_edge_ne (g : DiGraph) {u v u' v' : String} (w : ℚ)
    (hne : ¬(u' = u ∧ v' = v)) :
    (g.add_edge u v w).edgeWeight? u' v' = g.edgeWeight? u' v' := by
  unfold edgeWeight?
  rw [add_edge_edges_cases]
  by_cases h : g.edges.any (fun e => decide (e.1 = u ∧ e.2.1 = v)) = true
  · rw [if_pos h, find?_map_overwrite_ne g.edges w hne]
  · have hlast : ¬((u, v, w).1 = u' ∧ (u, v, w).2.1 = v') := by
      intro hc; exact hne ⟨hc.1.symm, hc.2.symm⟩
    rw [if_neg h, List.find?_append, List.find?_cons_of_neg _ (by simpa using hlast)]
    cases hfind : g.edges.find? (fun e => decide (e.1 = u' ∧ e.2.1 = v')) <;>
      simp [hfind]

end DiGraph

namespace DiGraph

theorem mem_add_edge_edges {g : DiGraph} {u v : String} {w : ℚ}
    {x : String × String × ℚ} (hx : x ∈ (g.add_edge u v w).edges) :
    x ∈ g.edges ∨ x = (u, v, w) := by
  rw [add_edge_edges_cases] at hx
  split at hx
  · rcases List.mem_map.mp hx with ⟨e, he, hfe⟩
    by_cases hc : e.1 = u ∧ e.2.1 = v
    · right; rw [if_pos hc] at hfe; exact hfe.symm
    · left; rw [if_neg hc] at hfe; exact hfe ▸ he
  · rcases List.mem_append.mp hx with h | h
    · exact Or.inl h
    · exact Or.inr (List.mem_singleton.mp h)

theorem add_edge_edgePairs (g : DiGraph) (u v : String) (w : ℚ) :
    (g.add_edge u v w).edgePairs =
      (if g.edges.any (fun e => decide (e.1 = u ∧ e.2.1 = v)) then g.edgePairs
       else g.edgePairs ++ [(u, v)]) := by
  unfold edgePairs
  rw [add_edge_edges_cases]
  split
  · rw [List.map_map]
    apply List.map_congr_left
    intro e _
    by_cases hc : e.1 = u ∧ e.2.1 = v
    · simp [hc, hc.1, hc.2]
    · simp [hc]
  · simp

theorem remove_edge_nodes (g : DiGraph) (u v : String) :
    (g.remove_edge u v).nodes = g.nodes := rfl

theorem mem_remove_edge_edges {g : DiGraph} {u v : String}
    {x : String × String × ℚ} :
    x ∈ (g.remove_edge u v).edges ↔ x ∈ g.edges ∧ ¬(x.1 = u ∧ x.2.1 = v) := by
  unfold remove_edge
  simp only [List.mem_filter, decide_eq_true_eq]

theorem WF_empty : WF empty := by constructor <;> simp [empty, edgePairs]

theorem WF_add_node {g : DiGraph} (h : WF g) (n : String) : WF (g.add_node n) := by
  obtain ⟨h1, h2, h3⟩ := h
  refine ⟨add_node_nodes_nodup h1 n, ?_, ?_⟩
  · intro e he
    rw [add_node_edges] at he
    obtain ⟨hu, hv⟩ := h2 e he
    exact ⟨mem_add_node_nodes.mpr (Or.inl hu), mem_add_node_nodes.mpr (Or.inl hv)⟩
  · simpa [edgePairs, add_node_edges] using h3

theorem WF_add_edge {g : DiGraph} (h : WF g) (u v : String) (w : ℚ) :
    WF (g.add_edge u v w) := by
  obtain ⟨h1, h2, h3⟩ := h
  refine ⟨add_edge_nodes_nodup h1 u v w, ?_, ?_⟩
  · intro e he
    rcases mem_add_edge_edges he with hm | hm
    · obtain ⟨hu, hv⟩ := h2 e hm
      exact ⟨mem_add_edge_nodes.mpr (Or.inl hu), mem_add_edge_nodes.mpr (Or.inl hv)⟩
    · subst hm
      exact ⟨mem_add_edge_nodes.mpr (Or.inr (Or.inl rfl)),
             mem_add_edge_nodes.mpr (Or.inr (Or.inr rfl))⟩
  · rw [add_edge_edgePairs]
    split
    · exact h3
    · rename_i hany
      rw [List.nodup_append]
      refine ⟨h3, List.nodup_singleton _, ?_⟩
      intro x hx hx'
      rw [List.mem_singleton] at hx'
      subst hx'
      rcases List.mem_map.mp hx with ⟨e, he, hpe⟩
      exact hany (List.any_eq_true.mpr ⟨e, he, by
        simp only [decide_eq_true_eq]
        exact ⟨congrArg Prod.fst hpe, congrArg Prod.snd hpe⟩⟩)

theorem WF_remove_edge {g : DiGraph} (h : WF g) (u v : String) :
    WF (g.remove_edge u v) := by
  obtain ⟨h1, h2, h3⟩ := h
  refine ⟨h1, ?_, ?_⟩
  · intro e he
    exact h2 e (mem_remove_edge_edges.mp he).1
  · exact List.Nodup.sublist (List.Sublist.map _ (List.filter_sublist _)) h3

end DiGraph

instance {ε α : Type} [DecidableEq ε] [DecidableEq α] : DecidableEq (Except ε α)
  | Except.ok a, Except.ok b =>
      if h : a = b then Decidable.isTrue (by rw [h])
      else Decidable.isFalse (by intro hc; cases hc; exact h rfl)
  | Except.error a, Except.error b =>
      if h : a = b then Decidable.isTrue (by rw [h])
      else Decidable.isFalse (by intro hc; cases hc; exact h rfl)
  | Except.ok _, Except.error _ => Decidable.isFalse (by intro hc; cases hc)
  | Except.error _, Except.ok _ => Decidable.isFalse (by intro hc; cases hc)

/-! ### Dictionary lookup lemmas -/

theorem find?_eq_some_of_unique {α : Type} {p : α → Bool} {l : List α} {a : α}
    (ha : a ∈ l) (hpa : p a = true) (huniq : ∀ b ∈ l, p b = true → b = a) :
    l.find? p = some a := by
  induction l with
  | nil => cases ha
  | cons b l ih =>
    by_cases hb : p b = true
    · rw [List.find?_cons_of_pos _ hb, huniq b (List.mem_cons_self b l) hb]
    · rw [List.find?_cons_of_neg _ (by simpa using hb)]
      rcases List.mem_cons.mp ha with h | h
      · exact absurd (h ▸ hpa) hb
      · exact ih h (fun c hc hpc => huniq c (List.mem_cons_of_mem b hc) hpc)

theorem dictGet_eq_some_of_mem {ibc : List (Nat × String)}
    (hk : (ibc.map Prod.fst).Nodup) {p : Nat × String} (hp : p ∈ ibc) :
    dictGet ibc p.1 = some p.2 := by
  unfold dictGet
  have huniq : ∀ b ∈ ibc, (fun q : Nat × String => decide (q.1 = p.1)) b = true → b = p := by
    intro b hb hpb
    simp only [decide_eq_true_eq] at hpb
    exact List.inj_on_of_nodup_map hk hb hp hpb
  rw [find?_eq_some_of_unique hp (by simp) huniq]
  rfl

theorem dictGet_eq_some_elim {ibc : List (Nat × String)} {k : Nat} {s : String}
    (h : dictGet ibc k = some s) : ∃ p, p ∈ ibc ∧ p.1 = k ∧ p.2 = s := by
  unfold dictGet at h
  cases hf : ibc.find? (fun p => decide (p.1 = k)) with
  | none => rw [hf] at h; cases h
  | some q =>
    rw [hf] at h
    refine ⟨q, List.mem_of_find?_eq_some hf, ?_, by simpa using h⟩
    have := List.find?_some hf
    simpa using this

theorem dictGet_isSome_of_mem_keys {ibc : List (Nat × String)} {k : Nat}
    (h : k ∈ ibc.map Prod.fst) : (dictGet ibc k).isSome := by
  rcases List.mem_map.mp h with ⟨p, hp, hk⟩
  unfold dictGet
  cases hf : ibc.find? (fun q => decide (q.1 = k)) with
  | none =>
    rw [List.find?_eq_none] at hf
    exact absurd (by simpa using hk) (by simpa using hf p hp)
  | some q => simp

/-! ### Consequences of input validity -/

theorem ValidInput.length_eq {tm : List (List ℚ)} {ibc : List (Nat × String)}
    (h : ValidInput tm ibc) : ibc.length = tm.length := by
  have := h.2.1.length_eq
  simpa using this

theorem ValidInput.keys_nodup {tm : List (List ℚ)} {ibc : List (Nat × String)}
    (h : ValidInput tm ibc) : (ibc.map Prod.fst).Nodup :=
  h.2.1.nodup_iff.mpr (List.nodup_range _)

theorem ValidInput.key_lt {tm : List (List ℚ)} {ibc : List (Nat × String)}
    (h : ValidInput tm ibc) {p : Nat × String} (hp : p ∈ ibc) : p.1 < tm.length := by
  have hmem : p.1 ∈ ibc.map Prod.fst := List.mem_map.mpr ⟨p, hp, rfl⟩
  have := h.2.1.mem_iff.mp hmem
  simpa using this

theorem ValidInput.mem_keys_of_lt {tm : List (List ℚ)} {ibc : List (Nat × String)}
    (h : ValidInput tm ibc) {j : Nat} (hj : j < tm.length) :
    j ∈ ibc.map Prod.fst :=
  h.2.1.mem_iff.mpr (List.mem_range.mpr hj)

theorem ValidInput.label_inj {tm : List (List ℚ)} {ibc : List (Nat × String)}
    (h : ValidInput tm ibc) {p q : Nat × String} (hp : p ∈ ibc) (hq : q ∈ ibc)
    (hpq : p.2 = q.2) : p = q :=
  List.inj_on_of_nodup_map h.2.2 hp hq hpq

theorem ValidInput.row_length {tm : List (List ℚ)} {ibc : List (Nat × String)}
    (h : ValidInput tm ibc) {i : Nat} {row : List ℚ} (hrow : tm.get? i = some row) :
    row.length = tm.length :=
  h.1 row (by simpa using List.get?_mem hrow)

/-! ### The construction on its success path -/

namespace GraphProcessor

/-- The inner loop of `_construct_graph` on the success path (every column
index is a key of `intent_by_cluster`). -/
def add_row_edges_pure (ibc : List (Nat × String)) (a : String) :
    Nat → List ℚ → DiGraph → DiGraph
  | _, [], g => g
  | j, w :: ws, g =>
      add_row_edges_pure ibc a (j + 1) ws (g.add_edge a ((dictGet ibc j).getD "") w)

/-- `_construct_graph` on the success path: the node phase followed by the
edge phase. -/
def build_pure (tm : List (List ℚ)) (ibc : List (Nat × String)) : DiGraph :=
  ibc.foldl (fun g p => add_row_edges_pure ibc p.2 0 (tm.getD p.1 []) g)
    (ibc.foldl (fun g p => g.add_node p.2) DiGraph.empty)

theorem add_row_edges_eq_ok (ibc : List (Nat × String)) (a : String) :
    ∀ (ws : List ℚ) (j : Nat) (g : DiGraph),
    (∀ i, i < ws.length → (dictGet ibc (j + i)).isSome) →
    add_row_edges ibc a j ws g = Except.ok (add_row_edges_pure ibc a j ws g) := by
  intro ws
  induction ws with
  | nil => intro j g _; rfl
  | cons w ws ih =>
    intro j g h
    have h0 : (dictGet ibc j).isSome := by simpa using h 0 (by simp)
    obtain ⟨s, hs⟩ := Option.isSome_iff_exists.mp h0
    unfold add_row_edges add_row_edges_pure
    rw [hs]
    simp only [hs, Option.getD_some]
    exact ih (j + 1) _ (fun i hi => by
      have := h (i + 1) (by simpa using Nat.succ_lt_succ hi)
      simpa [Nat.add_assoc, Nat.add_comm 1 i] using this)

theorem foldlM_eq_ok {σ α : Type} (f : σ → α → Except PyError σ) (g : σ → α → σ)
    (l : List α) (h : ∀ s a, a ∈ l → f s a = Except.ok (g s a)) :
    ∀ s, l.foldlM f s = Except.ok (l.foldl g s) := by
  induction l with
  | nil => intro s; rfl
  | cons a l ih =>
    intro s
    rw [List.foldlM_cons, h s a (List.mem_cons_self a l)]
    simpa using ih (fun s b hb => h s b (List.mem_cons_of_mem a hb)) (g s a)

theorem foldlM_ok_invariant {σ α : Type} (P : σ → Prop)
    (f : σ → α → Except PyError σ) (l : List α)
    (hstep : ∀ s a s', a ∈ l → f s a = Except.ok s' → P s → P s') :
    ∀ s s', l.foldlM f s = Except.ok s' → P s → P s' := by
  induction l with
  | nil => intro s s' h hs; cases h; exact hs
  | cons a l ih =>
    intro s s' h hs
    rw [List.foldlM_cons] at h
    cases hfa : f s a with
    | error e =>
      rw [hfa] at h
      have h' : (Except.error e : Except PyError σ) = Except.ok s' := h
      cases h'
    | ok x =>
      rw [hfa] at h
      have h' : l.foldlM f x = Except.ok s' := h
      exact ih (fun s b s' hb => hstep s b s' (List.mem_cons_of_mem a hb)) x s' h'
        (hstep s a x (List.mem_cons_self a l) hfa hs)

theorem foldlM_error_inversion {σ α : Type} (Q : PyError → Prop)
    (f : σ → α → Except PyError σ) (l : List α)
    (hstep : ∀ s a e, a ∈ l → f s a = Except.error e → Q e) :
    ∀ s e, l.foldlM f s = Except.error e → Q e := by
  induction l with
  | nil => intro s e h; cases h
  | cons a l ih =>
    intro s e h
    rw [List.foldlM_cons] at h
    cases hfa : f s a with
    | error e' =>
      rw [hfa] at h
      have h' : (Except.error e' : Except PyError σ) = Except.error e := h
      cases h'
      exact hstep s a e (List.mem_cons_self a l) hfa
    | ok x =>
      rw [hfa] at h
      have h' : l.foldlM f x = Except.error e := h
      exact ih (fun s b e' hb => hstep s b e' (List.mem_cons_of_mem a hb)) x e h'

theorem add_row_edges_error (ibc : List (Nat × String)) (a : String) :
    ∀ (ws : List ℚ) (j : Nat) (g : DiGraph) (e : PyError),
    add_row_edges ibc a j ws g = Except.error e → e = PyError.keyError := by
  intro ws
  induction ws with
  | nil => intro j g e h; cases h
  | cons w ws ih =>
    intro j g e h
    unfold add_row_edges at h
    cases hd : dictGet ibc j with
    | none => rw [hd] at h; cases h; rfl
    | some s => rw [hd] at h; exact ih (j + 1) _ e h

theorem construct_graph_error {tm : List (List ℚ)} {ibc : List (Nat × String)}
    {e : PyError} (h : construct_graph tm ibc = Except.error e) :
    e = PyError.indexError ∨ e = PyError.keyError := by
  unfold construct_graph at h
  refine foldlM_error_inversion (fun e => e = PyError.indexError ∨ e = PyError.keyError)
    _ ibc ?_ _ e h
  intro s p e' _ hstep
  cases hrow : tm.get? p.1 with
  | none => rw [hrow] at hstep; cases hstep; exact Or.inl rfl
  | some row =>
    rw [hrow] at hstep
    exact Or.inr (add_row_edges_error ibc p.2 row 0 s e' hstep)

theorem construct_graph_eq_ok {tm : List (List ℚ)} {ibc : List (Nat × String)}
    (h : ValidInput tm ibc) :
    construct_graph tm ibc = Except.ok (build_pure tm ibc) := by
  unfold construct_graph build_pure
  apply foldlM_eq_ok
  intro s p hp
  obtain ⟨row, hrow⟩ : ∃ row, tm.get? p.1 = some row :=
    ⟨_, List.get?_eq_some.mpr ⟨h.key_lt hp, rfl⟩⟩
  rw [hrow]
  have hgetD : tm.getD p.1 [] = row := by
    rw [List.getD_eq_get?, hrow]; rfl
  rw [hgetD]
  apply add_row_edges_eq_ok
  intro i hi
  apply dictGet_isSome_of_mem_keys
  apply h.mem_keys_of_lt
  rw [h.row_length hrow] at hi
  simpa using hi

/-! ### Nodes of the constructed graph -/

theorem edges_foldl_add_node (l : List (Nat × String)) :
    ∀ g : DiGraph, (l.foldl (fun g p => g.add_node p.2) g).edges = g.edges := by
  induction l with
  | nil => intro g; rfl
  | cons p l ih =>
    intro g
    rw [List.foldl_cons, ih, DiGraph.add_node_edges]

theorem mem_nodes_foldl_add_node (l : List (Nat × String)) :
    ∀ (g : DiGraph) (n : String),
    n ∈ (l.foldl (fun g p => g.add_node p.2) g).nodes ↔
      n ∈ g.nodes ∨ n ∈ l.map Prod.snd := by
  induction l with
  | nil => intro g n; simp
  | cons p l ih =>
    intro g n
    rw [List.foldl_cons, ih, DiGraph.mem_add_node_nodes]
    simp only [List.map_cons, List.mem_cons]
    tauto

theorem nodup_nodes_foldl_add_node (l : List (Nat × String)) :
    ∀ g : DiGraph, g.nodes.Nodup →
    (l.foldl (fun g p => g.add_node p.2) g).nodes.Nodup := by
  induction l with
  | nil => intro g hg; exact hg
  | cons p l ih =>
    intro g hg
    rw [List.foldl_cons]
    exact ih _ (DiGraph.add_node_nodes_nodup hg p.2)

theorem nodes_foldl_add_node (l : List (Nat × String)) :
    ∀ g : DiGraph, (l.map Prod.snd).Nodup →
    (∀ n ∈ l.map Prod.snd, n ∉ g.nodes) →
    (l.foldl (fun g p => g.add_node p.2) g).nodes = g.nodes ++ l.map Prod.snd := by
  induction l with
  | nil => intro g _ _; simp
  | cons p l ih =>
    intro g hnd hdisj
    simp only [List.map_cons] at hnd hdisj
    rw [List.foldl_cons]
    have hp2 : p.2 ∉ g.nodes := hdisj p.2 (List.mem_cons_self _ _)
    have hadd : (g.add_node p.2).nodes = g.nodes ++ [p.2] := by
      rw [DiGraph.add_node_nodes, if_neg hp2]
    have hdisj' : ∀ n ∈ l.map Prod.snd, n ∉ (g.add_node p.2).nodes := by
      intro n hn
      rw [hadd]
      intro hmem
      rcases List.mem_append.mp hmem with hmem | hmem
      · exact hdisj n (List.mem_cons_of_mem _ hn) hmem
      · rw [List.mem_singleton] at hmem
        exact (List.nodup_cons.mp hnd).1 (hmem ▸ hn)
    rw [ih _ (List.nodup_cons.mp hnd).2 hdisj', hadd, List.append_assoc]
    rfl

theorem WF_foldl_add_node (l : List (Nat × String)) :
    ∀ g : DiGraph, DiGraph.WF g →
    DiGraph.WF (l.foldl (fun g p => g.add_node p.2) g) := by
  induction l with
  | nil => intro g hg; exact hg
  | cons p l ih =>
    intro g hg
    rw [List.foldl_cons]
    exact ih _ (DiGraph.WF_add_node hg p.2)

theorem WF_add_row_edges_pure (ibc : List (Nat × String)) (a : String) :
    ∀ (ws : List ℚ) (j : Nat) (g : DiGraph), DiGraph.WF g →
    DiGraph.WF (add_row_edges_pure ibc a j ws g) := by
  intro ws
  induction ws with
  | nil => intro j g hg; exact hg
  | cons w ws ih =>
    intro j g hg
    unfold add_row_edges_pure
    exact ih (j + 1) _ (DiGraph.WF_add_edge hg _ _ _)

theorem WF_foldl_rows (tm : List (List ℚ)) (ibc l : List (Nat × String)) :
    ∀ g0 : DiGraph, DiGraph.WF g0 →
    DiGraph.WF
      (l.foldl (fun g p => add_row_edges_pure ibc p.2 0 (tm.getD p.1 []) g) g0) := by
  induction l with
  | nil => intro g0 h0; exact h0
  | cons p l ih =>
    intro g0 h0
    rw [List.foldl_cons]
    exact ih _ (WF_add_row_edges_pure ibc p.2 _ 0 g0 h0)

theorem WF_build_pure (tm : List (List ℚ)) (ibc : List (Nat × String)) :
    DiGraph.WF (build_pure tm ibc) :=
  WF_foldl_rows tm ibc ibc _ (WF_foldl_add_node ibc DiGraph.empty DiGraph.WF_empty)

theorem nodes_add_row_edges_pure (ibc : List (Nat × String)) (a : String) :
    ∀ (ws : List ℚ) (j : Nat) (g : DiGraph), a ∈ g.nodes →
    (∀ i, i < ws.length → ∃ s, dictGet ibc (j + i) = some s ∧ s ∈ g.nodes) →
    (add_row_edges_pure ibc a j ws g).nodes = g.nodes := by
  intro ws
  induction ws with
  | nil => intro j g _ _; rfl
  | cons w ws ih =>
    intro j g ha hs
    obtain ⟨s, hs0, hsmem⟩ := hs 0 (by simp)
    rw [Nat.add_zero] at hs0
    unfold add_row_edges_pure
    rw [hs0]
    simp only [Option.getD_some]
    have hnodes : (g.add_edge a s w).nodes = g.nodes :=
      DiGraph.add_edge_nodes_of_mem ha hsmem w
    rw [ih (j + 1) _ (by rw [hnodes]; exact ha) ?_, hnodes]
    intro i hi
    obtain ⟨s', hs', hsmem'⟩ := hs (i + 1) (by simpa using Nat.succ_lt_succ hi)
    refine ⟨s', ?_, by rw [hnodes]; exact hsmem'⟩
    rw [← hs']
    congr 1
    omega

theorem nodes_foldl_rows (tm : List (List ℚ)) (ibc l : List (Nat × String)) :
    ∀ g : DiGraph,
    (∀ p ∈ l, p.2 ∈ g.nodes) →
    (∀ i s, dictGet ibc i = some s → s ∈ g.nodes) →
    (∀ p ∈ l, ∀ i, i < (tm.getD p.1 []).length → (dictGet ibc i).isSome) →
    (l.foldl (fun g p => add_row_edges_pure ibc p.2 0 (tm.getD p.1 []) g) g).nodes
      = g.nodes := by
  induction l with
  | nil => intro g _ _ _; rfl
  | cons p l ih =>
    intro g hl hdict hsome
    rw [List.foldl_cons]
    have hstep : (add_row_edges_pure ibc p.2 0 (tm.getD p.1 []) g).nodes = g.nodes := by
      apply nodes_add_row_edges_pure
      · exact hl p (List.mem_cons_self p l)
      · intro i hi
        obtain ⟨s, hs⟩ := Option.isSome_iff_exists.mp
          (hsome p (List.mem_cons_self p l) (0 + i) (by simpa using hi))
        exact ⟨s, by simpa using hs, hdict _ s (by simpa using hs)⟩
    rw [ih _ ?_ ?_ ?_, hstep]
    · intro q hq; rw [hstep]; exact hl q (List.mem_cons_of_mem p hq)
    · intro i s hs; rw [hstep]; exact hdict i s hs
    · intro q hq i hi; exact hsome q (List.mem_cons_of_mem p hq) i hi

theorem nodes_build_pure {tm : List (List ℚ)} {ibc : List (Nat × String)}
    (h : ValidInput tm ibc) : (build_pure tm ibc).nodes = ibc.map Prod.snd := by
  unfold build_pure
  have h0 : (ibc.foldl (fun g p => g.add_node p.2) DiGraph.empty).nodes
      = ibc.map Prod.snd := by
    rw [nodes_foldl_add_node ibc DiGraph.empty h.2.2 (by intro n _ hc; cases hc)]
    rfl
  rw [nodes_foldl_rows tm ibc ibc _ ?_ ?_ ?_, h0]
  · intro p hp; rw [h0]; exact List.mem_map.mpr ⟨p, hp, rfl⟩
  · intro i s hs
    rw [h0]
    obtain ⟨q, hq, _, hq2⟩ := dictGet_eq_some_elim hs
    exact List.mem_map.mpr ⟨q, hq, hq2⟩
  · intro p hp i hi
    apply dictGet_isSome_of_mem_keys
    apply h.mem_keys_of_lt
    obtain ⟨row, hrow⟩ : ∃ row, tm.get? p.1 = some row :=
      ⟨_, List.get?_eq_some.mpr ⟨h.key_lt hp, rfl⟩⟩
    have hgetD : tm.getD p.1 [] = row := by
      rw [List.getD_eq_get?, hrow]; rfl
    rw [hgetD, h.row_length hrow] at hi
    exact hi

/-! ### Edge weights of the constructed graph -/

theorem edgeWeight_add_row_pure_ne_src (ibc : List (Nat × String)) (a : String) :
    ∀ (ws : List ℚ) (j : Nat) (g : DiGraph) (u v : String), u ≠ a →
    (add_row_edges_pure ibc a j ws g).edgeWeight? u v = g.edgeWeight? u v := by
  intro ws
  induction ws with
  | nil => intro j g u v _; rfl
  | cons w ws ih =>
    intro j g u v hu
    unfold add_row_edges_pure
    rw [ih (j + 1) _ u v hu, DiGraph.edgeWeight?_add_edge_ne]
    intro hc
    exact hu hc.1

theorem edgeWeight_add_row_pure_miss (ibc : List (Nat × String)) (a : String) :
    ∀ (ws : List ℚ) (j : Nat) (g : DiGraph) (v : String),
    (∀ i, i < ws.length → (dictGet ibc (j + i)).getD "" ≠ v) →
    (add_row_edges_pure ibc a j ws g).edgeWeight? a v = g.edgeWeight? a v := by
  intro ws
  induction ws with
  | nil => intro j g v _; rfl
  | cons w ws ih =>
    intro j g v hmiss
    unfold add_row_edges_pure
    rw [ih (j + 1) _ v ?_, DiGraph.edgeWeight?_add_edge_ne]
    · intro hc
      refine hmiss 0 (by simp) ?_
      rw [Nat.add_zero]
      exact hc.2.symm
    · intro i hi
      have := hmiss (i + 1) (by simpa using Nat.succ_lt_succ hi)
      intro hc
      refine this ?_
      rw [show j + (i + 1) = j + 1 + i by omega]
      exact hc

theorem edgeWeight_add_row_pure_hit (ibc : List (Nat × String)) (a : String) :
    ∀ (ws : List ℚ) (j k : Nat) (g : DiGraph) (v : String),
    j ≤ k → k < j + ws.length →
    (dictGet ibc k).getD "" = v →
    (∀ i, j ≤ i → i < j + ws.length → (dictGet ibc i).getD "" = v → i = k) →
    (add_row_edges_pure ibc a j ws g).edgeWeight? a v = ws.get? (k - j) := by
  intro ws
  induction ws with
  | nil =>
    intro j k g v hjk hk _ _
    simp only [List.length_nil, Nat.add_zero] at hk
    omega
  | cons w ws ih =>
    intro j k g v hjk hk hv huniq
    unfold add_row_edges_pure
    rcases Nat.eq_or_lt_of_le hjk with heq | hlt
    · subst heq
      have hlabel : (dictGet ibc j).getD "" = v := hv
      rw [hlabel]
      have hrest : ∀ i, i < ws.length → (dictGet ibc (j + 1 + i)).getD "" ≠ v := by
        intro i hi hc
        have := huniq (j + 1 + i) (by omega) (by simp; omega) hc
        omega
      rw [edgeWeight_add_row_pure_miss ibc a ws (j + 1) _ v hrest,
        DiGraph.edgeWeight?_add_edge_self]
      simp
    · have hne : (dictGet ibc j).getD "" ≠ v := by
        intro hc
        have := huniq j (Nat.le_refl j) (by simp) hc
        omega
      rw [ih (j + 1) k _ v hlt (by simp only [List.length_cons] at hk; omega) hv ?_]
      · have : k - j = (k - (j + 1)) + 1 := by omega
        rw [this]
        rfl
      · intro i h1 h2 h3
        exact huniq i (by omega) (by simp only [List.length_cons]; omega) h3

theorem edgeWeight_foldl_rows_ne (tm : List (List ℚ)) (ibc l : List (Nat × String)) :
    ∀ (g : DiGraph) (u v : String), (∀ p ∈ l, p.2 ≠ u) →
    ((l.foldl (fun g p => add_row_edges_pure ibc p.2 0 (tm.getD p.1 []) g) g).edgeWeight?
      u v) = g.edgeWeight? u v := by
  induction l with
  | nil => intro g u v _; rfl
  | cons p l ih =>
    intro g u v hne
    rw [List.foldl_cons, ih _ u v (fun q hq => hne q (List.mem_cons_of_mem p hq)),
      edgeWeight_add_row_pure_ne_src ibc p.2 _ 0 g u v
        (fun hc => hne p (List.mem_cons_self p l) hc.symm)]

theorem edgeWeight_foldl_rows_hit {tm : List (List ℚ)} {ibc : List (Nat × String)}
    (h : ValidInput tm ibc) :
    ∀ (l : List (Nat × String)), (l.map Prod.snd).Nodup → (∀ p ∈ l, p ∈ ibc) →
    ∀ (g : DiGraph) (p q : Nat × String), p ∈ l → q ∈ ibc →
    ((l.foldl (fun g p => add_row_edges_pure ibc p.2 0 (tm.getD p.1 []) g) g).edgeWeight?
      p.2 q.2) = some (get2d tm p.1 q.1) := by
  intro l
  induction l with
  | nil => intro _ _ g p q hp _; cases hp
  | cons p0 l ih =>
    intro hnd hsub g p q hp hq
    simp only [List.map_cons, List.nodup_cons] at hnd
    rw [List.foldl_cons]
    rcases List.mem_cons.mp hp with heq | hmem
    · subst heq
      have hothers : ∀ r ∈ l, r.2 ≠ p.2 := by
        intro r hr hc
        exact hnd.1 (hc ▸ List.mem_map.mpr ⟨r, hr, rfl⟩)
      rw [edgeWeight_foldl_rows_ne tm ibc l _ p.2 q.2 hothers]
      have hpibc : p ∈ ibc := hsub p (List.mem_cons_self p l)
      obtain ⟨row, hrow⟩ : ∃ row, tm.get? p.1 = some row :=
        ⟨_, List.get?_eq_some.mpr ⟨h.key_lt hpibc, rfl⟩⟩
      have hgetD : tm.getD p.1 [] = row := by
        rw [List.getD_eq_get?, hrow]; rfl
      have hrowlen : row.length = tm.length := h.row_length hrow
      have hqlt : q.1 < tm.length := h.key_lt hq
      obtain ⟨x, hx⟩ : ∃ x, row.get? q.1 = some x :=
        ⟨_, List.get?_eq_some.mpr ⟨by rw [hrowlen]; exact hqlt, rfl⟩⟩
      have hhit := edgeWeight_add_row_pure_hit ibc p.2 row 0 q.1 g q.2
        (Nat.zero_le _) (by simpa [hrowlen] using hqlt)
        (by rw [dictGet_eq_some_of_mem h.keys_nodup hq]; rfl)
        ?_
      · rw [hgetD, hhit, Nat.sub_zero, hx]
        have hget2d : get2d tm p.1 q.1 = x := by
          unfold get2d
          rw [hrow, Option.some_bind, hx]
          rfl
        rw [hget2d]
      · intro i _ hilt hlabel
        have hisome : (dictGet ibc i).isSome :=
          dictGet_isSome_of_mem_keys (h.mem_keys_of_lt (by
            simp only [Nat.zero_add] at hilt
            rw [← hrowlen]
            exact hilt))
        obtain ⟨s, hs⟩ := Option.isSome_iff_exists.mp hisome
        rw [hs] at hlabel
        simp only [Option.getD_some] at hlabel
        obtain ⟨r, hr, hr1, hr2⟩ := dictGet_eq_some_elim hs
        have : r = q := h.label_inj hr hq (by rw [hr2, hlabel])
        rw [← hr1, this]
    · exact ih hnd.2 (fun r hr => hsub r (List.mem_cons_of_mem p0 hr)) _ p q hmem hq

theorem edgeWeight_build_pure {tm : List (List ℚ)} {ibc : List (Nat × String)}
    (h : ValidInput tm ibc) {p q : Nat × String} (hp : p ∈ ibc) (hq : q ∈ ibc) :
    (build_pure tm ibc).edgeWeight? p.2 q.2 = some (get2d tm p.1 q.1) :=
  edgeWeight_foldl_rows_hit h ibc h.2.2 (fun _ hr => hr) _ p q hp hq

end GraphProcessor

/-! ### The extraction -/

theorem get?_replicate {α : Type} (x : α) : ∀ (n i : Nat),
    (List.replicate n x).get? i = if i < n then some x else none := by
  intro n
  induction n with
  | zero => intro i; simp
  | succ n ih =>
    intro i
    cases i with
    | zero => simp [List.replicate]
    | succ i =>
      simp only [List.replicate, List.get?_cons_succ, ih i]
      by_cases h : i < n
      · rw [if_pos h, if_pos (Nat.succ_lt_succ h)]
      · rw [if_neg h, if_neg (fun hc => h (Nat.lt_of_succ_lt_succ hc))]

theorem get2d_zero_matrix (size a b : Nat) :
    get2d (List.replicate size (List.replicate size (0 : ℚ))) a b = 0 := by
  unfold get2d
  rw [show (List.replicate size (List.replicate size (0:ℚ))).get? a
      = if a < size then some (List.replicate size (0:ℚ)) else none from
      get?_replicate _ size a]
  by_cases ha : a < size
  · rw [if_pos ha, Option.some_bind, get?_replicate _ size b]
    by_cases hb : b < size
    · rw [if_pos hb]; rfl
    · rw [if_neg hb]; rfl
  · rw [if_neg ha]; rfl

theorem set2d_length (m : List (List ℚ)) (i j : Nat) (w : ℚ) :
    (set2d m i j w).length = m.length := by
  unfold set2d
  cases m.get? i <;> simp

theorem set2d_rows {m : List (List ℚ)} {size : Nat}
    (hrows : ∀ row ∈ m, row.length = size) (i j : Nat) (w : ℚ) :
    ∀ row ∈ set2d m i j w, row.length = size := by
  unfold set2d
  cases hget : m.get? i with
  | none => exact hrows
  | some r =>
    intro row hrow
    rcases List.mem_or_eq_of_mem_set hrow with h | h
    · exact hrows row h
    · rw [h, List.length_set]
      exact hrows r (List.get?_mem hget)

theorem get2d_set2d_same {m : List (List ℚ)} {size : Nat}
    (hlen : m.length = size) (hrows : ∀ row ∈ m, row.length = size)
    {i j : Nat} (hi : i < size) (hj : j < size) (w : ℚ) :
    get2d (set2d m i j w) i j = w := by
  obtain ⟨row, hrow⟩ : ∃ row, m.get? i = some row :=
    ⟨_, List.get?_eq_some.mpr ⟨by rw [hlen]; exact hi, rfl⟩⟩
  unfold set2d
  rw [hrow]
  unfold get2d
  rw [List.get?_set_eq_of_lt _ (by rw [hlen]; exact hi), Option.some_bind,
    List.get?_set_eq_of_lt _ (by rw [hrows row (List.get?_mem hrow)]; exact hj)]
  rfl

theorem get2d_set2d_ne {m : List (List ℚ)} {i j a b : Nat}
    (h : a ≠ i ∨ b ≠ j) (w : ℚ) :
    get2d (set2d m i j w) a b = get2d m a b := by
  unfold set2d
  cases hrow : m.get? i with
  | none => rfl
  | some row =>
    unfold get2d
    rcases h with h | h
    · rw [List.get?_set_ne _ _ (fun hc => h hc.symm)]
    · by_cases hai : a = i
      · subst hai
        rw [List.get?_set_eq_of_lt _ (List.get?_eq_some.mp hrow).1, hrow,
          Option.some_bind, Option.some_bind, List.get?_set_ne _ _ (fun hc => h hc.symm)]
      · rw [List.get?_set_ne _ _ (fun hc => hai hc.symm)]

theorem getD_eq_get {α : Type} [Inhabited α] {l : List α} {i : Nat} (hi : i < l.length)
    (d : α) : l.getD i d = l.get ⟨i, hi⟩ := by
  rw [List.getD_eq_get?, List.get?_eq_get hi]
  rfl

theorem nodup_indexOf_getD {nodes : List String} (h : nodes.Nodup) {i : Nat}
    (hi : i < nodes.length) : nodes.indexOf (nodes.getD i "") = i := by
  rw [getD_eq_get hi]
  have hmem : nodes.get ⟨i, hi⟩ ∈ nodes := nodes.get_mem _ _
  have hlt : nodes.indexOf (nodes.get ⟨i, hi⟩) < nodes.length :=
    List.indexOf_lt_length.mpr hmem
  have hget : nodes.get ⟨nodes.indexOf (nodes.get ⟨i, hi⟩), hlt⟩ = nodes.get ⟨i, hi⟩ :=
    List.indexOf_get hlt
  have := (List.Nodup.get_inj_iff h).mp hget
  exact congrArg Fin.val this

theorem eq_getD_of_indexOf {nodes : List String} (h : nodes.Nodup) {x : String}
    (hm : x ∈ nodes) {i : Nat} (hidx : nodes.indexOf x = i) :
    x = nodes.getD i "" := by
  have hlt : nodes.indexOf x < nodes.length := List.indexOf_lt_length.mpr hm
  have hget : nodes.get ⟨nodes.indexOf x, hlt⟩ = x := List.indexOf_get hlt
  subst hidx
  rw [getD_eq_get hlt]
  exact hget.symm

theorem extract_fold_miss (nodes : List String) :
    ∀ (es : List (String × String × ℚ)) (m : List (List ℚ)) (a b : Nat),
    (∀ e ∈ es, ¬(nodes.indexOf e.1 = a ∧ nodes.indexOf e.2.1 = b)) →
    get2d (es.foldl
      (fun m e => set2d m (nodes.indexOf e.1) (nodes.indexOf e.2.1) e.2.2) m) a b
      = get2d m a b := by
  intro es
  induction es with
  | nil => intro m a b _; rfl
  | cons e es ih =>
    intro m a b hmiss
    rw [List.foldl_cons, ih _ a b (fun x hx => hmiss x (List.mem_cons_of_mem e hx)),
      get2d_set2d_ne ?_]
    have := hmiss e (List.mem_cons_self e es)
    by_cases ha : a = nodes.indexOf e.1
    · right
      intro hb
      exact this ⟨ha.symm, hb.symm⟩
    · left; exact ha

theorem extract_fold_hit (nodes : List String) {size : Nat} :
    ∀ (es : List (String × String × ℚ)) (m : List (List ℚ))
    (x : String × String × ℚ) (a b : Nat),
    m.length = size → (∀ row ∈ m, row.length = size) →
    a < size → b < size →
    x ∈ es → nodes.indexOf x.1 = a → nodes.indexOf x.2.1 = b →
    (es.map (fun e => (nodes.indexOf e.1, nodes.indexOf e.2.1))).Nodup →
    get2d (es.foldl
      (fun m e => set2d m (nodes.indexOf e.1) (nodes.indexOf e.2.1) e.2.2) m) a b
      = x.2.2 := by
  intro es
  induction es with
  | nil => intro m x a b _ _ _ _ hx; cases hx
  | cons e es ih =>
    intro m x a b hlen hrows ha hb hx hxa hxb hnd
    simp only [List.map_cons, List.nodup_cons] at hnd
    rw [List.foldl_cons]
    rcases List.mem_cons.mp hx with heq | hmem
    · subst heq
      rw [hxa, hxb]
      rw [extract_fold_miss nodes es _ a b ?_]
      · exact get2d_set2d_same hlen hrows ha hb x.2.2
      · intro e' he' hc
        refine hnd.1 ?_
        have hpair : (nodes.indexOf e'.1, nodes.indexOf e'.2.1)
            = (nodes.indexOf x.1, nodes.indexOf x.2.1) := by
          rw [hc.1, hc.2, hxa, hxb]
        rw [← hpair]
        exact List.mem_map_of_mem _ he'
    · exact ih _ x a b (by rw [set2d_length]; exact hlen)
        (set2d_rows hrows _ _ _) ha hb hmem hxa hxb hnd.2

theorem extract_matrix_cell {g : DiGraph} (hWF : DiGraph.WF g) {a b : Nat}
    (ha : a < g.nodes.length) (hb : b < g.nodes.length) :
    get2d (GraphProcessor.extract_intent_and_matrix_from_graph g).2 a b
      = (g.edgeWeight? (g.nodes.getD a "") (g.nodes.getD b "")).getD 0 := by
  obtain ⟨hnd, hends, hpairs⟩ := hWF
  have hmapnd : (g.edges.map
      (fun e => (g.nodes.indexOf e.1, g.nodes.indexOf e.2.1))).Nodup := by
    have : (fun e : String × String × ℚ => (g.nodes.indexOf e.1, g.nodes.indexOf e.2.1))
        = (fun pr : String × String => (g.nodes.indexOf pr.1, g.nodes.indexOf pr.2))
          ∘ (fun e : String × String × ℚ => (e.1, e.2.1)) := rfl
    rw [this, ← List.map_map]
    refine (List.nodup_map_iff_inj_on hpairs).mpr ?_
    intro pr hpr pr' hpr' heq
    rcases List.mem_map.mp hpr with ⟨e, he, hpe⟩
    rcases List.mem_map.mp hpr' with ⟨e', he', hpe'⟩
    have h1 : pr.1 ∈ g.nodes := by rw [← hpe]; exact (hends e he).1
    have h2 : pr.2 ∈ g.nodes := by rw [← hpe]; exact (hends e he).2
    have h1' : pr'.1 ∈ g.nodes := by rw [← hpe']; exact (hends e' he').1
    have h2' : pr'.2 ∈ g.nodes := by rw [← hpe']; exact (hends e' he').2
    have heq1 := congrArg Prod.fst heq
    have heq2 := congrArg Prod.snd heq
    simp only at heq1 heq2
    exact Prod.ext ((List.indexOf_inj h1 h1').mp heq1) ((List.indexOf_inj h2 h2').mp heq2)
  simp only [GraphProcessor.extract_intent_and_matrix_from_graph]
  cases hfind : g.edges.find?
      (fun e => decide (e.1 = g.nodes.getD a "" ∧ e.2.1 = g.nodes.getD b "")) with
  | some x =>
    have hxmem : x ∈ g.edges := List.mem_of_find?_eq_some hfind
    have hxpred := List.find?_some hfind
    simp only [decide_eq_true_eq] at hxpred
    have hxa : g.nodes.indexOf x.1 = a := by rw [hxpred.1]; exact nodup_indexOf_getD hnd ha
    have hxb : g.nodes.indexOf x.2.1 = b := by rw [hxpred.2]; exact nodup_indexOf_getD hnd hb
    rw [extract_fold_hit g.nodes g.edges _ x a b
      (show (List.replicate g.nodes.length
          (List.replicate g.nodes.length (0:ℚ))).length = g.nodes.length by simp)
      (fun row hrow => by
        rcases List.eq_of_mem_replicate hrow with rfl
        simp) ha hb hxmem hxa hxb hmapnd]
    unfold DiGraph.edgeWeight?
    rw [hfind]
    rfl
  | none =>
    rw [List.find?_eq_none] at hfind
    rw [extract_fold_miss g.nodes g.edges _ a b ?_]
    · rw [get2d_zero_matrix]
      unfold DiGraph.edgeWeight?
      rw [List.find?_eq_none.mpr hfind]
      rfl
    · intro e he hc
      refine hfind e he ?_
      simp only [decide_eq_true_eq]
      exact ⟨eq_getD_of_indexOf hnd (hends e he).1 hc.1,
             eq_getD_of_indexOf hnd (hends e he).2 hc.2⟩

/-! ### The threshold filter -/

namespace ThresholdFilter

theorem apply_loop_nodes (t : ℚ) :
    ∀ (es : List (String × String × ℚ)) (fg : DiGraph),
    (apply_loop t fg es).nodes = fg.nodes := by
  intro es
  induction es with
  | nil => intro fg; rfl
  | cons e es ih =>
    intro fg
    unfold apply_loop
    rw [ih]
    split <;> rfl

theorem mem_apply_loop_edges (t : ℚ) :
    ∀ (es : List (String × String × ℚ)) (fg : DiGraph) (x : String × String × ℚ),
    x ∈ (apply_loop t fg es).edges ↔
      x ∈ fg.edges ∧ ∀ e ∈ es, (e.1 = x.1 ∧ e.2.1 = x.2.1) → ¬ e.2.2 < t := by
  intro es
  induction es with
  | nil => intro fg x; simp [apply_loop]
  | cons e es ih =>
    intro fg x
    unfold apply_loop
    rw [ih]
    by_cases hlt : e.2.2 < t
    · rw [if_pos hlt, DiGraph.mem_remove_edge_edges]
      simp only [List.mem_cons, forall_eq_or_imp]
      constructor
      · rintro ⟨⟨hmem, hne⟩, hrest⟩
        exact ⟨hmem, fun hpair => absurd ⟨hpair.1.symm, hpair.2.symm⟩ hne, hrest⟩
      · rintro ⟨hmem, hhead, hrest⟩
        refine ⟨⟨hmem, fun hpair => hhead ⟨hpair.1.symm, hpair.2.symm⟩ hlt⟩, hrest⟩
    · rw [if_neg hlt]
      simp only [List.mem_cons, forall_eq_or_imp]
      constructor
      · rintro ⟨hmem, hrest⟩
        exact ⟨hmem, fun _ => hlt, hrest⟩
      · rintro ⟨hmem, _, hrest⟩
        exact ⟨hmem, hrest⟩

theorem mem_apply_edges (f : ThresholdFilter) (g : DiGraph)
    (x : String × String × ℚ) :
    x ∈ (f.apply g).edges ↔
      x ∈ g.edges ∧ ∀ e ∈ g.edges, (e.1 = x.1 ∧ e.2.1 = x.2.1) → ¬ e.2.2 < f.threshold :=
  mem_apply_loop_edges f.threshold g.edges g x

theorem mem_apply_edges_of_nodup {f : ThresholdFilter} {g : DiGraph}
    (h : g.edgePairs.Nodup) (x : String × String × ℚ) :
    x ∈ (f.apply g).edges ↔ x ∈ g.edges ∧ ¬ x.2.2 < f.threshold := by
  rw [mem_apply_edges]
  constructor
  · rintro ⟨hmem, hall⟩
    exact ⟨hmem, hall x hmem ⟨rfl, rfl⟩⟩
  · rintro ⟨hmem, hx⟩
    refine ⟨hmem, fun e he hpair => ?_⟩
    have hepair : (fun e : String × String × ℚ => (e.1, e.2.1)) e
        = (fun e : String × String × ℚ => (e.1, e.2.1)) x := by
      simp only [hpair.1, hpair.2]
    have : e = x := List.inj_on_of_nodup_map h he hmem hepair
    rw [this]
    exact hx

theorem apply_run_loop_spec (t : ℚ) :
    ∀ (es : List (String × String × ℚ)) (inp fg : DiGraph),
    apply_run_loop t (inp, fg) es = (inp, apply_loop t fg es) := by
  intro es
  induction es with
  | nil => intro inp fg; rfl
  | cons e es ih =>
    intro inp fg
    unfold apply_run_loop apply_loop
    rw [ih]

end ThresholdFilter

/-! ### Node facts on any successful construction -/

namespace GraphProcessor

theorem add_row_edges_ok_nodes (ibc : List (Nat × String)) (a : String)
    (ha : a ∈ ibc.map Prod.snd) :
    ∀ (ws : List ℚ) (j : Nat) (g g' : DiGraph),
    add_row_edges ibc a j ws g = Except.ok g' →
    (g.nodes.Nodup ∧ ∀ n ∈ g.nodes, n ∈ ibc.map Prod.snd) →
    (g'.nodes.Nodup ∧ ∀ n ∈ g'.nodes, n ∈ ibc.map Prod.snd) := by
  intro ws
  induction ws with
  | nil => intro j g g' hok hg; cases hok; exact hg
  | cons w ws ih =>
    intro j g g' hok hg
    unfold add_row_edges at hok
    cases hd : dictGet ibc j with
    | none => rw [hd] at hok; cases hok
    | some s =>
      rw [hd] at hok
      refine ih (j + 1) _ g' hok ⟨DiGraph.add_edge_nodes_nodup hg.1 a s w, ?_⟩
      intro n hn
      rcases DiGraph.mem_add_edge_nodes.mp hn with hm | hm | hm
      · exact hg.2 n hm
      · exact hm ▸ ha
      · obtain ⟨q, hq, _, hq2⟩ := dictGet_eq_some_elim hd
        exact hm ▸ (List.mem_map.mpr ⟨q, hq, hq2⟩)

theorem construct_graph_ok_nodes {tm : List (List ℚ)} {ibc : List (Nat × String)}
    {g : DiGraph} (h : construct_graph tm ibc = Except.ok g) :
    g.nodes.Nodup ∧ ∀ n ∈ g.nodes, n ∈ ibc.map Prod.snd := by
  unfold construct_graph at h
  refine foldlM_ok_invariant
    (fun g => g.nodes.Nodup ∧ ∀ n ∈ g.nodes, n ∈ ibc.map Prod.snd) _ ibc ?_ _ g h ?_
  · intro s p s' hp hstep hs
    cases hrow : tm.get? p.1 with
    | none => rw [hrow] at hstep; cases hstep
    | some row =>
      rw [hrow] at hstep
      exact add_row_edges_ok_nodes ibc p.2 (List.mem_map.mpr ⟨p, hp, rfl⟩)
        row 0 s s' hstep hs
  · constructor
    · exact nodup_nodes_foldl_add_node ibc DiGraph.empty List.nodup_nil
    · intro n hn
      rcases (mem_nodes_foldl_add_node ibc DiGraph.empty n).mp hn with hm | hm
      · cases hm
      · exact hm

end GraphProcessor

theorem not_nodup_toFinset_card_lt :
    ∀ (l : List String), ¬ l.Nodup → l.toFinset.card < l.length := by
  intro l
  induction l with
  | nil => intro h; exact absurd List.nodup_nil h
  | cons x xs ih =>
    intro h
    rw [List.toFinset_cons, List.length_cons]
    by_cases hx : x ∈ xs
    · have : insert x xs.toFinset = xs.toFinset :=
        Finset.insert_eq_self.mpr (List.mem_toFinset.mpr hx)
      rw [this]
      exact Nat.lt_succ_of_le xs.toFinset_card_le
    · have hxs : ¬ xs.Nodup := fun hnd => h (List.nodup_cons.mpr ⟨hx, hnd⟩)
      rw [Finset.card_insert_of_not_mem (fun hc => hx (List.mem_toFinset.mp hc))]
      exact Nat.succ_lt_succ (ih hxs)

theorem nodes_length_lt_of_dup {nodes labels : List String}
    (hnd : nodes.Nodup) (hsub : ∀ n ∈ nodes, n ∈ labels) (hdup : ¬ labels.Nodup) :
    nodes.length < labels.length := by
  have h1 : nodes.length = nodes.toFinset.card := (List.toFinset_card_of_nodup hnd).symm
  have h2 : nodes.toFinset ⊆ labels.toFinset := by
    intro n hn
    exact List.mem_toFinset.mpr (hsub n (List.mem_toFinset.mp hn))
  calc nodes.length = nodes.toFinset.card := h1
    _ ≤ labels.toFinset.card := Finset.card_le_card h2
    _ < labels.length := not_nodup_toFinset_card_lt labels hdup

/-! ### Claim theorems -/

/-- C1.  Round-trip: for every valid pair `(matrix, labelMap)` — square
matrix, label map keyed by exactly `0..N-1`, pairwise-distinct labels —
the construction succeeds, and extracting from the built graph yields a
label map whose labels are exactly the original labels (in node insertion
order) and a matrix equal to the original up to the index relabeling
induced by that insertion order: the extracted cell `(a, b)` holds the
original cell addressed by the keys of the `a`-th and `b`-th inserted
entries. -/
theorem construct_extract_roundtrip (tm : List (List ℚ)) (ibc : List (Nat × String))
    (h : ValidInput tm ibc) :
    ∃ g, GraphProcessor.construct_graph tm ibc = Except.ok g ∧
      (GraphProcessor.extract_intent_and_matrix_from_graph g).1.map Prod.snd
        = ibc.map Prod.snd ∧
      ∀ a b, a < ibc.length → b < ibc.length →
        get2d (GraphProcessor.extract_intent_and_matrix_from_graph g).2 a b
          = get2d tm (ibc.getD a (0, "")).1 (ibc.getD b (0, "")).1 := by
  refine ⟨GraphProcessor.build_pure tm ibc, GraphProcessor.construct_graph_eq_ok h,
    ?_, ?_⟩
  · have h1 : (GraphProcessor.extract_intent_and_matrix_from_graph
        (GraphProcessor.build_pure tm ibc)).1
        = (GraphProcessor.build_pure tm ibc).nodes.enum := rfl
    rw [h1, List.enum_map_snd, GraphProcessor.nodes_build_pure h]
  · intro a b halt hblt
    have hnodes := GraphProcessor.nodes_build_pure h
    have hWF := GraphProcessor.WF_build_pure tm ibc
    have ha' : a < (GraphProcessor.build_pure tm ibc).nodes.length := by
      rw [hnodes, List.length_map]; exact halt
    have hb' : b < (GraphProcessor.build_pure tm ibc).nodes.length := by
      rw [hnodes, List.length_map]; exact hblt
    rw [extract_matrix_cell hWF ha' hb']
    have hpmem : ibc.getD a (0, "") ∈ ibc := by
      rw [getD_eq_get halt]; exact ibc.get_mem _ _
    have hqmem : ibc.getD b (0, "") ∈ ibc := by
      rw [getD_eq_get hblt]; exact ibc.get_mem _ _
    have hpa : (GraphProcessor.build_pure tm ibc).nodes.getD a ""
        = (ibc.getD a (0, "")).2 := by
      rw [hnodes,
        getD_eq_get (show a < (ibc.map Prod.snd).length by
          rw [List.length_map]; exact halt),
        getD_eq_get halt, List.get_map]
    have hpb : (GraphProcessor.build_pure tm ibc).nodes.getD b ""
        = (ibc.getD b (0, "")).2 := by
      rw [hnodes,
        getD_eq_get (show b < (ibc.map Prod.snd).length by
          rw [List.length_map]; exact hblt),
        getD_eq_get hblt, List.get_map]
    rw [hpa, hpb, GraphProcessor.edgeWeight_build_pure h hpmem hqmem]
    rfl

/-- Witness for C1 at the spec's scenario input. -/
theorem construct_extract_roundtrip_witness :
    ValidInput [[0, mkRat 9 10], [mkRat 1 5, 0]] [(0, "greet"), (1, "close")] ∧
    (∃ g, GraphProcessor.construct_graph [[0, mkRat 9 10], [mkRat 1 5, 0]]
        [(0, "greet"), (1, "close")] = Except.ok g ∧
      (GraphProcessor.extract_intent_and_matrix_from_graph g).1.map Prod.snd
        = [(0, "greet"), (1, "close")].map Prod.snd ∧
      ∀ a b, a < [(0, "greet"), (1, "close")].length →
        b < [(0, "greet"), (1, "close")].length →
        get2d (GraphProcessor.extract_intent_and_matrix_from_graph g).2 a b
          = get2d [[0, mkRat 9 10], [mkRat 1 5, 0]]
              ([(0, "greet"), (1, "close")].getD a (0, "")).1
              ([(0, "greet"), (1, "close")].getD b (0, "")).1) :=
  ⟨by decide, construct_extract_roundtrip _ _ (by decide)⟩

/-- C2, counterexample.  The claim says the builder is sparse (an edge
exactly when `matrix[i][j] > 0`, so exactly two edges in the scenario);
the code is dense: the scenario produces four edges, among them the
zero-weight self-loop `("greet", "greet", 0.0)`. -/
theorem sparse_policy_counterexample :
    (GraphProcessor.construct_graph [[0, mkRat 9 10], [mkRat 1 5, 0]]
        [(0, "greet"), (1, "close")]).map DiGraph.edges
      = Except.ok [("greet", "greet", 0), ("greet", "close", mkRat 9 10),
                   ("close", "greet", mkRat 1 5), ("close", "close", 0)] ∧
    (GraphProcessor.construct_graph [[0, mkRat 9 10], [mkRat 1 5, 0]]
        [(0, "greet"), (1, "close")]).map
        (fun g => decide (("greet", "greet", (0 : ℚ)) ∈ g.edges)) = Except.ok true ∧
    (GraphProcessor.construct_graph [[0, mkRat 9 10], [mkRat 1 5, 0]]
        [(0, "greet"), (1, "close")]).map (fun g => g.edges.length)
      = Except.ok 4 := by
  refine ⟨by decide, by decide, by decide⟩

/-- C2, amended.  Dense construction: for every valid input the builder
adds an edge `(label i, label j)` for every pair of entries, carrying
weight `matrix[i][j]` whatever its sign — zero entries also produce
edges.  In particular the scenario yields exactly the four edges
`(greet,greet,0)`, `(greet,close,0.9)`, `(close,greet,0.2)`,
`(close,close,0)`. -/
theorem dense_policy_amended :
    (∀ (tm : List (List ℚ)) (ibc : List (Nat × String)), ValidInput tm ibc →
      ∃ g, GraphProcessor.construct_graph tm ibc = Except.ok g ∧
        ∀ p ∈ ibc, ∀ q ∈ ibc,
          g.edgeWeight? p.2 q.2 = some (get2d tm p.1 q.1)) ∧
    (GraphProcessor.construct_graph [[0, mkRat 9 10], [mkRat 1 5, 0]]
        [(0, "greet"), (1, "close")]).map DiGraph.edges
      = Except.ok [("greet", "greet", 0), ("greet", "close", mkRat 9 10),
                   ("close", "greet", mkRat 1 5), ("close", "close", 0)] :=
  ⟨fun tm ibc h => ⟨GraphProcessor.build_pure tm ibc,
      GraphProcessor.construct_graph_eq_ok h,
      fun p hp q hq => GraphProcessor.edgeWeight_build_pure h hp hq⟩,
    by decide⟩

/-- Witness for C2's amended universal part at the scenario input. -/
theorem dense_policy_amended_witness :
    ∃ g, GraphProcessor.construct_graph [[0, mkRat 9 10], [mkRat 1 5, 0]]
        [(0, "greet"), (1, "close")] = Except.ok g ∧
      ∀ p ∈ [(0, "greet"), (1, "close")], ∀ q ∈ [(0, "greet"), (1, "close")],
        g.edgeWeight? p.2 q.2
          = some (get2d [[0, mkRat 9 10], [mkRat 1 5, 0]] p.1 q.1) :=
  dense_policy_amended.1 _ _ (by decide)

/-- C3, counterexample.  `build` with a 3-entry label map keyed `0..2`
and a 2×2 matrix does not fail with `ShapeMismatch`: it fails with
`IndexError` while reading the missing row `matrix[2]`. -/
theorem shape_validation_counterexample :
    GraphProcessor.construct_graph [[1, 2], [3, 4]]
      [(0, "greet"), (1, "close"), (2, "farewell")]
      = Except.error PyError.indexError ∧
    PyError.indexError ≠ PyError.shapeMismatch := by
  refine ⟨by decide, by decide⟩

/-- C3, amended.  The builder performs no shape validation and never
raises `ShapeMismatch`: any failure is an `IndexError` (a key beyond the
row count) or a `KeyError` (a column index that is not a key).  A
3-entry label map with a 2×2 matrix fails with `IndexError`, and a label
map smaller than the row count can even build successfully, silently
ignoring the extra rows. -/
theorem shape_no_validation_amended :
    (∀ (tm : List (List ℚ)) (ibc : List (Nat × String)) (e : PyError),
      GraphProcessor.construct_graph tm ibc = Except.error e →
      e = PyError.indexError ∨ e = PyError.keyError) ∧
    GraphProcessor.construct_graph [[1, 2], [3, 4]]
      [(0, "greet"), (1, "close"), (2, "farewell")]
      = Except.error PyError.indexError ∧
    GraphProcessor.construct_graph [[5], [6]] [(0, "solo")]
      = Except.ok ⟨["solo"], [("solo", "solo", 5)]⟩ :=
  ⟨fun _ _ _ h => GraphProcessor.construct_graph_error h, by decide, by decide⟩

/-- Witness for C3's amended universal part at the 3-labels/2×2 input. -/
theorem shape_no_validation_amended_witness :
    PyError.indexError = PyError.indexError ∨ PyError.indexError = PyError.keyError :=
  shape_no_validation_amended.1 [[1, 2], [3, 4]]
    [(0, "greet"), (1, "close"), (2, "farewell")] PyError.indexError (by decide)

/-- C4.  Threshold boundary: on any well-formed edge list (one edge per
source/target pair, as in every `networkx.DiGraph`), an edge whose weight
equals the threshold is retained, and the filter drops exactly the edges
with weight strictly below the threshold. -/
theorem threshold_boundary_retained (f : ThresholdFilter) (g : DiGraph)
    (h : g.edgePairs.Nodup) :
    (∀ u v, (u, v, f.threshold) ∈ g.edges → (u, v, f.threshold) ∈ (f.apply g).edges) ∧
    (∀ x, x ∈ (f.apply g).edges ↔ x ∈ g.edges ∧ ¬ x.2.2 < f.threshold) := by
  refine ⟨?_, fun x => ThresholdFilter.mem_apply_edges_of_nodup h x⟩
  intro u v hmem
  exact (ThresholdFilter.mem_apply_edges_of_nodup h (u, v, f.threshold)).mpr
    ⟨hmem, lt_irrefl f.threshold⟩

/-- Witness for C4 on a two-node graph with a boundary edge. -/
theorem threshold_boundary_retained_witness :
    (DiGraph.mk ["a", "b"] [("a", "b", mkRat 1 2)]).edgePairs.Nodup ∧
    ((∀ u v, (u, v, (ThresholdFilter.mk (mkRat 1 2)).threshold)
          ∈ (DiGraph.mk ["a", "b"] [("a", "b", mkRat 1 2)]).edges →
        (u, v, (ThresholdFilter.mk (mkRat 1 2)).threshold)
          ∈ ((ThresholdFilter.mk (mkRat 1 2)).apply
              (DiGraph.mk ["a", "b"] [("a", "b", mkRat 1 2)])).edges) ∧
      (∀ x, x ∈ ((ThresholdFilter.mk (mkRat 1 2)).apply
            (DiGraph.mk ["a", "b"] [("a", "b", mkRat 1 2)])).edges ↔
          x ∈ (DiGraph.mk ["a", "b"] [("a", "b", mkRat 1 2)]).edges ∧
            ¬ x.2.2 < (ThresholdFilter.mk (mkRat 1 2)).threshold)) :=
  ⟨by decide, threshold_boundary_retained (ThresholdFilter.mk (mkRat 1 2))
    (DiGraph.mk ["a", "b"] [("a", "b", mkRat 1 2)]) (by decide)⟩

/-- C5.  Threshold monotonicity: for thresholds `t1 < t2`, every edge of
the graph filtered at `t2` is an edge of the graph filtered at `t1`. -/
theorem threshold_monotone (t1 t2 : ℚ) (g : DiGraph) (h : t1 < t2) :
    ((ThresholdFilter.mk t2).apply g).edges ⊆ ((ThresholdFilter.mk t1).apply g).edges := by
  intro x hx
  rw [ThresholdFilter.mem_apply_edges] at hx ⊢
  refine ⟨hx.1, fun e he hpair hlt => ?_⟩
  exact hx.2 e he hpair (lt_trans hlt h)

/-- Witness for C5 at `t1 = 0.3 < t2 = 0.7` on a two-edge graph. -/
theorem threshold_monotone_witness :
    mkRat 3 10 < mkRat 7 10 ∧
    ((ThresholdFilter.mk (mkRat 7 10)).apply
        (DiGraph.mk ["a", "b"] [("a", "b", mkRat 9 10), ("b", "a", mkRat 1 2)])).edges
      ⊆ ((ThresholdFilter.mk (mkRat 3 10)).apply
        (DiGraph.mk ["a", "b"] [("a", "b", mkRat 9 10), ("b", "a", mkRat 1 2)])).edges :=
  ⟨by decide, threshold_monotone (mkRat 3 10) (mkRat 7 10)
    (DiGraph.mk ["a", "b"] [("a", "b", mkRat 9 10), ("b", "a", mkRat 1 2)]) (by decide)⟩

/-- C6.  Node preservation: the threshold filter never changes the node
set — nodes left edge-less by the removals are retained. -/
theorem threshold_preserves_nodes (f : ThresholdFilter) (g : DiGraph) :
    (f.apply g).nodes = g.nodes :=
  ThresholdFilter.apply_loop_nodes f.threshold g.edges g

/-- C7.  Filter purity: running `apply` with the two Python objects
tracked explicitly, the caller's input graph is returned unchanged —
same nodes, edges and weights — and the result is the filtered copy. -/
theorem threshold_apply_no_mutation (f : ThresholdFilter) (g : DiGraph) :
    (f.apply_run g).1 = g ∧ (f.apply_run g).2 = f.apply g := by
  unfold ThresholdFilter.apply_run ThresholdFilter.apply
  rw [ThresholdFilter.apply_run_loop_spec]
  exact ⟨rfl, rfl⟩

/-- C8.  Empty input: building from `[]` and `{}` yields the graph with
no nodes and no edges, and extracting from it returns `([], {})` (an
empty label map and a 0×0 matrix). -/
theorem empty_input_roundtrip :
    GraphProcessor.construct_graph [] [] = Except.ok DiGraph.empty ∧
    DiGraph.empty.nodes = [] ∧ DiGraph.empty.edges = [] ∧
    GraphProcessor.extract_intent_and_matrix_from_graph DiGraph.empty = ([], []) :=
  ⟨rfl, rfl, rfl, rfl⟩

/-- C9.  `GraphProcessor.filter_graph` calls `filter_strategy.apply` with
three positional arguments while `ThresholdFilter.apply` declares one
parameter besides `self`, so the call raises `TypeError` before any field
is assigned; and every class-level call of the `@classmethod`
`extract_intent_and_matrix_from_graph` (whose only declared parameter
`graph` absorbs the implicit `cls`) with a graph argument also raises
`TypeError`. -/
theorem filter_graph_type_error (s : GraphProcessorState) (f : ThresholdFilter)
    (g : DiGraph) :
    GraphProcessor.filter_graph s f.strategy = Except.error PyError.typeError ∧
    extract_classmethod_call g = Except.error PyError.typeError :=
  ⟨rfl, rfl⟩

/-- C10.  Duplicate labels: if two entries of the label map carry the same
label, the builder deduplicates them into one node, so any successfully
built graph has fewer nodes than the label map has entries; concretely,
`[[1,2],[3,4]]` with labels `{0:"a", 1:"a"}` builds a single node whose
lone self-loop keeps only the last-processed weight `4` (each later index
pair overwrote the earlier weight), and extraction returns
`([(0,"a")], [[4]])`, not the original pair — label injectivity is
necessary for the round-trip. -/
theorem duplicate_labels_dedup :
    (∀ (tm : List (List ℚ)) (ibc : List (Nat × String)) (g : DiGraph),
      GraphProcessor.construct_graph tm ibc = Except.ok g →
      ¬ (ibc.map Prod.snd).Nodup → g.nodes.length < ibc.length) ∧
    GraphProcessor.construct_graph [[1, 2], [3, 4]] [(0, "a"), (1, "a")]
      = Except.ok ⟨["a"], [("a", "a", 4)]⟩ ∧
    GraphProcessor.extract_intent_and_matrix_from_graph ⟨["a"], [("a", "a", 4)]⟩
      = ([(0, "a")], [[4]]) := by
  refine ⟨?_, by decide, by decide⟩
  intro tm ibc g hok hdup
  obtain ⟨hnd, hsub⟩ := GraphProcessor.construct_graph_ok_nodes hok
  have := nodes_length_lt_of_dup hnd hsub hdup
  rwa [List.length_map] at this

/-- Witness for C10's universal part at the duplicate-label input. -/
theorem duplicate_labels_dedup_witness :
    (DiGraph.mk ["a"] [("a", "a", 4)]).nodes.length < [(0, "a"), (1, "a")].length :=
  duplicate_labels_dedup.1 [[1, 2], [3, 4]] [(0, "a"), (1, "a")]
    (DiGraph.mk ["a"] [("a", "a", 4)]) (by decide) (by decide)
